import Mathlib

/-!
Verification of the VidTrans batch job execution engine against its
natural-language specification.

The definitions below are shallow embeddings of the Python sources:
- `LANG_MAP`, `matchLang`, `subIdxs` embed `LANG_MAP` and
  `FFmpegWorker._match_lang` / `_do_extract` subtitle selection
  (src/unnamed/part_000);
- `matchTimeAt`, `searchTime`, `parseFfmpegTime` embed the regex
  `time=(\d+):(\d+):(\d+\.?\d*)` and `parse_ffmpeg_time` (src/app2.py,
  src/subsgpt.py);
- `trackEmitPct`, `runSteps`, `statusAfterFinish`, `barAfterUpdate` embed
  `JobWorker._run_process_and_track`, the step sequencing of
  `JobWorker.run`, `MainWindow._on_finished` and `MainWindow._update_row`
  (src/app2.py);
- `scanJobs`, `processNext`, `onFinished`, `Step` embed
  `MainWindow.process_next` / `MainWindow._on_finished` (src/app2.py);
- `ffRunFinal` embeds the cancellation epilogue of `FFmpegWorker.run`
  (src/unnamed/part_000);
- `uniquePath` embeds `unique_path` (src/unnamed/part_000);
- `admitJob`, `probeDuration` embed `probe_duration` and the admission
  logic of `MainWindow.add_from_input` (src/app2.py);
- `sgRun` embeds the disk-space preflight of `FFmpegWorker.run`
  (src/subsgpt.py).

Machine floats of the sources are modelled as exact rationals; external
process outcomes (ffprobe/ffmpeg results, disk state) are explicit
parameters.
-/

/-! ## Language alias table and subtitle matching (src/unnamed/part_000) -/

/-- Embedding of `LANG_MAP` (src/unnamed/part_000, lines 44-54). -/
def LANG_MAP : List (String × List String) :=
  [("pt", ["por", "pt"]),
   ("pt-BR", ["por", "pb", "pt-BR"]),
   ("en", ["eng", "en"]),
   ("es", ["spa", "es"]),
   ("fr", ["fra", "fre", "fr"]),
   ("de", ["deu", "ger", "de"]),
   ("it", ["ita", "it"]),
   ("ja", ["jpn", "ja"]),
   ("zh", ["zho", "chi", "zh"])]

/-- Python `LANG_MAP.get(k, [k])`. -/
def langMapGet (k : String) : List String :=
  (LANG_MAP.lookup k).getD [k]

/-- Python `str.lower()`, modelled per character (the language tags and
filters involved are ASCII, where per-character lowering agrees with
Python's case folding). -/
def lowerStr (s : String) : String :=
  ⟨s.data.map Char.toLower⟩

/-- Embedding of `FFmpegWorker._match_lang` (src/unnamed/part_000, lines
167-176).  The stream's language tag is `language` (`none` when the stream
carries no tag; the Python code then works on the empty string).  The
filters loop returns `True` on the first alias whose lowercase form equals
the lowercase tag; otherwise the result is whether the filter list
contains the wildcard. -/
def matchLang (langFilters : List String) (language : Option String) : Bool :=
  let lang := lowerStr (language.getD "")
  (langFilters.any fun k => (langMapGet k).any fun cand => lowerStr cand == lang)
    || langFilters.contains "*"

/-- Probed stream metadata, as consumed by `_do_extract`
(src/unnamed/part_000): container index, codec type and optional language
tag. -/
structure PStream where
  index : Nat
  codecType : String
  language : Option String
deriving DecidableEq, Repr

/-- Embedding of the subtitle selection of `FFmpegWorker._do_extract`
(src/unnamed/part_000, line 214): indices of subtitle streams whose
language matches the filters, in original stream order. -/
def subIdxs (streams : List PStream) (langFilters : List String) : List Nat :=
  (streams.filter fun s =>
    s.codecType == "subtitle" && matchLang langFilters s.language).map (·.index)

/-! ## ffmpeg progress-line parsing (src/app2.py lines 64-70, src/subsgpt.py
lines 26 and 35-41): the regex `time=(\d+):(\d+):(\d+\.?\d*)` searched
left-to-right, and the conversion to total seconds. -/

/-- Python `int(...)` on a digit string (decimal). -/
def digitsToNat (ds : List Char) : Nat :=
  ds.foldl (fun a c => 10 * a + (c.toNat - 48)) 0

/-- Value of the third regex group `\d+\.?\d*` as an exact rational:
integer digits plus fractional digits. -/
def ratVal (hd md sd fd : List Char) : ℚ :=
  (digitsToNat hd : ℚ) * 3600 + (digitsToNat md : ℚ) * 60 +
    ((digitsToNat sd : ℚ) + (digitsToNat fd : ℚ) / (10 : ℚ) ^ fd.length)

/-- The fraction digits matched by `\.?\d*` right after the seconds run:
present only when the next character is a dot. -/
def fracDigits (r : List Char) : List Char :=
  match r with
  | c :: r6 => if c = '.' then r6.takeWhile Char.isDigit else []
  | [] => []

/-- Matching of `(\d+):(\d+):(\d+\.?\d*)` at the start of `r0` (the text
right after a literal `time=`), with the value already converted to
seconds.  Greedy digit runs are maximal digit prefixes; the regex has no
backtracking here because `:` is not a digit and nothing follows the last
group. -/
def matchHMS (r0 : List Char) : Option ℚ :=
  if r0.takeWhile Char.isDigit = [] then none
  else if (r0.dropWhile Char.isDigit).head? = some ':' then
    if ((r0.dropWhile Char.isDigit).tail).takeWhile Char.isDigit = [] then none
    else if (((r0.dropWhile Char.isDigit).tail).dropWhile Char.isDigit).head?
        = some ':' then
      if ((((r0.dropWhile Char.isDigit).tail).dropWhile Char.isDigit).tail).takeWhile
          Char.isDigit = [] then none
      else some (ratVal (r0.takeWhile Char.isDigit)
        (((r0.dropWhile Char.isDigit).tail).takeWhile Char.isDigit)
        (((((r0.dropWhile Char.isDigit).tail).dropWhile Char.isDigit).tail).takeWhile
          Char.isDigit)
        (fracDigits
          (((((r0.dropWhile Char.isDigit).tail).dropWhile Char.isDigit).tail).dropWhile
            Char.isDigit)))
    else none
  else none

/-- Matching of the whole pattern anchored at the current position:
a literal `time=` followed by the three groups. -/
def matchTimeAt (cs : List Char) : Option ℚ :=
  match cs with
  | c1 :: c2 :: c3 :: c4 :: c5 :: r0 =>
    if c1 = 't' ∧ c2 = 'i' ∧ c3 = 'm' ∧ c4 = 'e' ∧ c5 = '=' then matchHMS r0
    else none
  | _ => none

/-- `re.search`: try the anchored match at each position, left to right. -/
def searchTime : List Char → Option ℚ
  | [] => none
  | c :: tl =>
    match matchTimeAt (c :: tl) with
    | some v => some v
    | none => searchTime tl

/-- Embedding of `parse_ffmpeg_time` (src/app2.py lines 64-70 and
src/subsgpt.py lines 35-41): `None` when the pattern does not occur,
otherwise `h*3600 + m*60 + s` for the matched groups. -/
def parse_ffmpeg_time (line : String) : Option ℚ :=
  searchTime line.data

/-- Specification-level predicate: `l` consists of decimal digits. -/
def AllDigits (l : List Char) : Prop := ∀ c ∈ l, c.isDigit = true

/-- The literal text of an `hours:minutes:seconds` elapsed-time marker. -/
def timeMarker (hd md sd : List Char) : List Char :=
  't' :: 'i' :: 'm' :: 'e' :: '=' :: (hd ++ ':' :: (md ++ ':' :: sd))

/-- Optional fraction written out: empty, or a dot followed by digits. -/
def fracPartChars (f : List Char) : List Char :=
  if f = [] then [] else '.' :: f

/-- Specification-level predicate: the line contains an elapsed-time
marker `time=h:m:s` with nonempty digit runs. -/
def ContainsTimeMarker (cs : List Char) : Prop :=
  ∃ pre hd md sd tail, cs = pre ++ timeMarker hd md sd ++ tail ∧
    hd ≠ [] ∧ md ≠ [] ∧ sd ≠ [] ∧ AllDigits hd ∧ AllDigits md ∧ AllDigits sd

/-! ## Progress percent while a step runs (src/app2.py lines 129-150,
src/subsgpt.py lines 97-102) and the 100-percent finish path
(src/app2.py lines 588-598 and 613-615). -/

/-- Job status vocabulary of src/app2.py (`Job.status`, line 102):
`queued, incompatible, running, done, error, skipped` — note the absence
of a `canceled` state. -/
inductive JStatus
  | queued
  | incompatible
  | running
  | done
  | error
  | skipped
deriving DecidableEq, Repr

/-- Embedding of the per-line progress emission inside
`_run_process_and_track` (src/app2.py lines 145-148) and
`_run_cmd_with_logging` (src/subsgpt.py lines 97-102): a percent is
emitted only when the line parses and the duration is positive, and is
`min(99, int(elapsed/duration*100))`.  Elapsed times produced by the
parser are nonnegative, so Python's `int` truncation is the floor. -/
def trackEmitPct (line : String) (duration : ℚ) : Option ℕ :=
  match parse_ffmpeg_time line with
  | some t => if 0 < duration then some (min 99 (⌊(t / duration) * 100⌋.toNat)) else none
  | none => none

/-- Embedding of the sequential step execution of `JobWorker.run`
(src/app2.py lines 188-280): each variant runs its steps in order and
stops at the first failing step; the job finishes successfully exactly
when every step's process exited with code 0. -/
def runSteps : List Bool → Bool
  | [] => true
  | r :: rs => if r then runSteps rs else false

/-- Embedding of `MainWindow._on_finished` status assignment
(src/app2.py line 590): `done` on success else `error`. -/
def statusAfterFinish (ok : Bool) : JStatus :=
  if ok then .done else .error

/-- Embedding of `MainWindow._update_row` progress-bar update
(src/app2.py lines 613-615): the bar is set to 100 only when the job
status is `done`; otherwise it keeps its previous value. -/
def barAfterUpdate (st : JStatus) (prev : ℕ) : ℕ :=
  if st = .done then 100 else prev

/-! ## The serial queue scheduler of src/app2.py (`MainWindow.process_next`,
lines 535-569, and `MainWindow._on_finished`, lines 588-598). -/

/-- The scheduler-relevant fields of an app2 `Job`: runtime status, the
`skip_if_incompatible` flag and the probed file size. -/
structure AJob where
  status : JStatus
  skipIfIncompatible : Bool
  filesize : Nat
deriving DecidableEq, Repr

/-- Scheduler state: the job list and `current_worker`/`current_row`
(`some i` while a worker for row `i` is running, `none` otherwise). -/
structure SchedState where
  jobs : List AJob
  current : Option Nat
deriving DecidableEq, Repr

/-- Embedding of the scan loop of `process_next` (src/app2.py lines
539-545): walk the jobs in order, auto-skipping flagged incompatible
jobs, and stop at the first `queued` job, returning the updated list and
that job's index. -/
def scanJobs : List AJob → List AJob × Option Nat
  | [] => ([], none)
  | j :: rest =>
    if j.status = .queued then (j :: rest, some 0)
    else if j.status = .incompatible ∧ j.skipIfIncompatible then
      ({ j with status := .skipped } :: (scanJobs rest).1, (scanJobs rest).2.map (· + 1))
    else
      (j :: (scanJobs rest).1, (scanJobs rest).2.map (· + 1))

/-- Embedding of `MainWindow.process_next` (src/app2.py lines 535-569).
The returned Bool records whether the blocking-incompatible warning
branch (lines 552-557) fired.  Note the code consults no disk state
here: the free-space check happens only at admission. -/
def processNext (s : SchedState) : SchedState × Bool :=
  if s.current.isSome then (s, false)
  else
    match (scanJobs s.jobs).2 with
    | none => ({ jobs := (scanJobs s.jobs).1, current := s.current }, false)
    | some i =>
      match (scanJobs s.jobs).1[i]? with
      | none => ({ jobs := (scanJobs s.jobs).1, current := s.current }, false)
      | some j =>
        if j.status = .incompatible ∧ ¬ j.skipIfIncompatible then
          ({ jobs := (scanJobs s.jobs).1, current := s.current }, true)
        else
          ({ jobs := (scanJobs s.jobs).1.set i { j with status := .running },
             current := some i }, false)

/-- Embedding of `MainWindow._on_finished` (src/app2.py lines 588-598):
the finished row becomes `done` or `error`, the worker reference is
cleared, and `process_next` is scheduled (a separate event below). -/
def onFinished (s : SchedState) (ok : Bool) : SchedState :=
  match s.current with
  | none => s
  | some i =>
    match s.jobs[i]? with
    | none => { s with current := none }
    | some j =>
      { jobs := s.jobs.set i { j with status := statusAfterFinish ok }, current := none }

/-- Events of the scheduler: a `process_next` pass, a worker-finished
signal, and admission of a new job (which, per `add_from_input`, enters
as `queued` or `incompatible`). -/
inductive SchedStep : SchedState → SchedState → Prop
  | pnext (s : SchedState) : SchedStep s (processNext s).1
  | finish (s : SchedState) (ok : Bool) : SchedStep s (onFinished s ok)
  | add (s : SchedState) (j : AJob)
      (hj : j.status = .queued ∨ j.status = .incompatible) :
      SchedStep s { s with jobs := s.jobs ++ [j] }

/-- States reachable from the initial empty queue. -/
def SchedReached (s : SchedState) : Prop :=
  Relation.ReflTransGen SchedStep { jobs := [], current := none } s

/-- Number of jobs whose status is `running`. -/
def countRunning (jobs : List AJob) : Nat :=
  (jobs.filter fun j => j.status == JStatus.running).length

/-- Invariant: a running job's index is the current worker's row. -/
def RunningAtCurrent (s : SchedState) : Prop :=
  ∀ k j, s.jobs[k]? = some j → j.status = .running → s.current = some k

/-- Modelled from the spec: the dispatch-time free-space re-check that
§4.4 requires (re-check destination free space ≥ input file size before
dispatching; a failing job flips to `incompatible` instead of being
dispatched).  This definition exists only for comparison with the code's
`processNext`, which performs no such re-check. -/
def processNextSpecRecheck (free : ℕ) (s : SchedState) : SchedState × Bool :=
  if s.current.isSome then (s, false)
  else
    match (scanJobs s.jobs).2 with
    | none => ({ jobs := (scanJobs s.jobs).1, current := s.current }, false)
    | some i =>
      match (scanJobs s.jobs).1[i]? with
      | none => ({ jobs := (scanJobs s.jobs).1, current := s.current }, false)
      | some j =>
        if j.status = .incompatible ∧ ¬ j.skipIfIncompatible then
          ({ jobs := (scanJobs s.jobs).1, current := s.current }, true)
        else if free < j.filesize then
          (SchedState.mk ((scanJobs s.jobs).1.set i { j with status := .incompatible })
            s.current, false)
        else
          (SchedState.mk ((scanJobs s.jobs).1.set i { j with status := .running })
            (some i), false)

/-! ## Cancellation outcomes: src/app2.py (`JobWorker.cancel`,
`_run_process_and_track`, `MainWindow._on_finished`) versus
src/unnamed/part_000 (`FFmpegWorker.run`, lines 193-196). -/

/-- Embedding of the result of `JobWorker._run_process_and_track`
(src/app2.py lines 138-150): if cancellation was requested while the
process ran, the loop terminates the process and returns False;
otherwise the result is whether the process exited with code 0. -/
def trackResult (cancelRequested : Bool) (rc : ℕ) : Bool :=
  if cancelRequested then false else rc == 0

/-- Job status vocabulary of src/unnamed/part_000 (`Job.status`, line 74):
`queued, running, done, error, canceled`. -/
inductive PStatus
  | queued
  | running
  | done
  | error
  | canceled
deriving DecidableEq, Repr

/-- Embedding of the epilogue of `FFmpegWorker.run`
(src/unnamed/part_000 lines 193-203): after `_do_extract`/`_do_reencode`
returns `ok`, a requested cancellation wins and yields `canceled`;
otherwise `done` on success and `error` on failure. -/
def ffRunFinal (cancelRequested : Bool) (ok : Bool) : PStatus :=
  if cancelRequested then .canceled else if ok then .done else .error

/-! ## Destination naming and `unique_path` (src/unnamed/part_000 lines
694-702), used by the subtitle conversion pipeline. -/

/-- A filesystem path as `pathlib` sees it for `with_stem`: the stem and
the (final) suffix.  `with_stem` replaces the stem, keeping the suffix. -/
structure MPath where
  stem : String
  suffix : String
deriving DecidableEq, Repr

/-- Python `base.with_stem(s)`. -/
def withStem (p : MPath) (s : String) : MPath := ⟨s, p.suffix⟩

/-- Decimal digit character, used to spell out Python's `f"{i}"`. -/
def decChar (d : ℕ) : Char :=
  if d = 0 then '0' else if d = 1 then '1' else if d = 2 then '2'
  else if d = 3 then '3' else if d = 4 then '4' else if d = 5 then '5'
  else if d = 6 then '6' else if d = 7 then '7' else if d = 8 then '8' else '9'

/-- Numeric value of a decimal digit character. -/
def decVal (c : Char) : ℕ := c.toNat - 48

/-- Decimal rendering of a natural number (Python `str(i)`). -/
def natRepr (n : ℕ) : String :=
  if n = 0 then "0" else String.mk (((Nat.digits 10 n).map decChar).reverse)

/-- Left inverse of `natRepr`, used to prove it injective. -/
def decodeStr (s : String) : ℕ :=
  Nat.ofDigits 10 ((s.data.map decVal).reverse)

/-- The disambiguated stem `f"{base.stem} ({i})"` of `unique_path`. -/
def candStem (base : MPath) (i : ℕ) : String :=
  base.stem ++ " (" ++ natRepr i ++ ")"

/-- The candidate path `base.with_stem(f"{base.stem} ({i})")`. -/
def cand (base : MPath) (i : ℕ) : MPath := withStem base (candStem base i)

def decVal_decChar {d : ℕ} (h : d < 10) : decVal (decChar d) = d := by
  interval_cases d <;> rfl

def natRepr_decode (n : ℕ) : decodeStr (natRepr n) = n := by
  unfold natRepr
  split_ifs with h0
  · subst h0
    decide
  · unfold decodeStr
    have hdata : (String.mk (((Nat.digits 10 n).map decChar).reverse)).data
        = ((Nat.digits 10 n).map decChar).reverse := rfl
    rw [hdata, List.map_reverse, List.reverse_reverse, List.map_map]
    have hmap : (Nat.digits 10 n).map (decVal ∘ decChar) = Nat.digits 10 n := by
      have hcongr : (Nat.digits 10 n).map (decVal ∘ decChar)
          = (Nat.digits 10 n).map id :=
        List.map_congr_left
          (fun d hd => decVal_decChar (Nat.digits_lt_base (by norm_num) hd))
      rw [hcongr, List.map_id]
    rw [hmap, Nat.ofDigits_digits]

def candStem_inj (base : MPath) {i j : ℕ} (h : candStem base i = candStem base j) :
    i = j := by
  unfold candStem at h
  have h2 := congrArg String.data h
  have e : ∀ a b : String, (a ++ b).data = a.data ++ b.data := fun a b => rfl
  rw [e, e, e, e] at h2
  have h3 := List.append_cancel_right h2
  have h4 := List.append_cancel_left h3
  have h5 : natRepr i = natRepr j := String.ext h4
  have h6 := congrArg decodeStr h5
  rw [natRepr_decode, natRepr_decode] at h6
  exact h6

def cand_inj (base : MPath) {i j : ℕ} (h : cand base i = cand base j) : i = j :=
  candStem_inj base (congrArg MPath.stem h)

def exists_unused (base : MPath) (fs : List MPath) :
    ∃ k : ℕ, cand base (k + 1) ∉ fs := by
  by_contra hall
  push_neg at hall
  have hinj : Function.Injective (fun k : ℕ => cand base (k + 1)) := by
    intro a b hab
    have := cand_inj base hab
    omega
  have hnodup : ((List.range (fs.length + 1)).map (fun k => cand base (k + 1))).Nodup :=
    (List.nodup_range _).map hinj
  have hsub : ((List.range (fs.length + 1)).map (fun k => cand base (k + 1))) ⊆ fs := by
    intro x hx
    simp only [List.mem_map, List.mem_range] at hx
    obtain ⟨k, _, hxe⟩ := hx
    rw [← hxe]
    exact hall k
  have hlen := (List.subperm_of_subset hnodup hsub).length_le
  simp at hlen

/-- Embedding of `unique_path` (src/unnamed/part_000 lines 694-702): with
overwrite, or when the base path does not exist, the base path itself;
otherwise the first candidate `f"{stem} ({i})"`, `i = 1, 2, ...`, that
does not exist.  The existing files are the explicit list `fs`; the
source's unbounded `while` loop terminates because only finitely many
files exist, which is the `exists_unused` fact fed to `Nat.find`. -/
def uniquePath (base : MPath) (overwrite : Bool) (fs : List MPath) : MPath :=
  if overwrite = true ∨ base ∉ fs then base
  else cand base (Nat.find (exists_unused base fs) + 1)

/-! ## Admission (src/app2.py `probe_duration` lines 57-62 and
`MainWindow.add_from_input` lines 433-460) and the subsgpt worker's
disk-space preflight (src/subsgpt.py `FFmpegWorker.run` lines 137-144). -/

/-- Probed stream metadata as recorded at admission (src/app2.py lines
440-446). -/
structure StreamInfo where
  index : ℕ
  codecType : String
  codecName : String
  language : Option String
deriving DecidableEq, Repr

/-- Embedding of `probe_duration` (src/app2.py lines 57-62): the ffprobe
outcome is `some v` when the call returned output parsing as a float,
`none` when it raised or its output was unparsable, in which case the
function returns the sentinel `0.0`. -/
def probe_duration (outcome : Option ℚ) : ℚ :=
  outcome.getD 0

/-- Embedding of the destination-space check at the end of
`add_from_input` (src/app2.py lines 453-460): `disk_usage` may itself
raise (`none`), which leaves the status untouched; otherwise a free
space smaller than the file size marks the job incompatible. -/
def spaceCheck (freeResult : Option ℕ) (size : ℕ) (st : JStatus) : JStatus :=
  match freeResult with
  | some free => if free < size then .incompatible else st
  | none => st

/-- Embedding of the admission logic of `add_from_input` (src/app2.py
lines 433-460), returning (status, duration, filesize).  A failed stream
probe leaves size and duration at 0 and marks the job incompatible; an
admitted job is queued exactly when a video stream is present, and the
space check runs last. -/
def admitJob (streamsResult : Option (List StreamInfo)) (durationResult : Option ℚ)
    (size : ℕ) (freeResult : Option ℕ) : JStatus × ℚ × ℕ :=
  match streamsResult with
  | none => (spaceCheck freeResult 0 .incompatible, 0, 0)
  | some streams =>
    (spaceCheck freeResult size
      (if streams.any (fun s => s.codecType == "video") then JStatus.queued
       else JStatus.incompatible),
     probe_duration durationResult, size)

/-- Embedding of the disk preflight at the start of `FFmpegWorker.run`
(src/subsgpt.py lines 137-144) followed by the job's steps: when the
destination free space is below the input size the job finishes
unsuccessfully before any step runs; otherwise success is that of the
step sequence. -/
def sgRun (free size : ℕ) (stepsOk : List Bool) : Bool :=
  if free < size then false else runSteps stepsOk

/-- Embedding of the row status written by subsgpt's `_on_finished`
(src/subsgpt.py line 503). -/
def sgRowStatus (success : Bool) : String :=
  if success then "Concluído" else "Falhou"



/-! ## Theorems -/

theorem subIdxs_eq_filter (streams : List PStream) (langFilters : List String) :
    subIdxs streams langFilters =
      ((streams.filter fun s => s.codecType == "subtitle").filter
        (fun s => matchLang langFilters s.language)).map (·.index) := by
  unfold subIdxs
  rw [List.filter_filter]
  congr 1
  apply List.filter_congr
  intro s _
  rw [Bool.and_comm]

/-- C1: with filters `["pt-BR","en"]`, the alias-table subtitle selection
picks exactly the `por`-tagged and `eng`-tagged streams, in original
order, and never the `spa`-tagged one (given the three subtitle streams
have the stated tags and distinct indices). -/
theorem matched_subs_ptBR_en (streams : List PStream) (i j k : Nat)
    (cv cw cx : String)
    (hsub : streams.filter (fun s => s.codecType == "subtitle") =
      [⟨i, cv, some "por"⟩, ⟨j, cw, some "eng"⟩, ⟨k, cx, some "spa"⟩])
    (hik : k ≠ i) (hjk : k ≠ j) :
    subIdxs streams ["pt-BR", "en"] = [i, j] ∧
      k ∉ subIdxs streams ["pt-BR", "en"] := by
  have hv : cv = "subtitle" := by
    have := List.mem_filter.mp
      (hsub ▸ List.mem_cons_self (⟨i, cv, some "por"⟩ : PStream) _)
    simpa using this.2
  have hw : cw = "subtitle" := by
    have hm : (⟨j, cw, some "eng"⟩ : PStream) ∈
        streams.filter (fun s => s.codecType == "subtitle") := by
      rw [hsub]; simp
    simpa using (List.mem_filter.mp hm).2
  have hx : cx = "subtitle" := by
    have hm : (⟨k, cx, some "spa"⟩ : PStream) ∈
        streams.filter (fun s => s.codecType == "subtitle") := by
      rw [hsub]; simp
    simpa using (List.mem_filter.mp hm).2
  subst hv hw hx
  have hsel : subIdxs streams ["pt-BR", "en"] = [i, j] := by
    rw [subIdxs_eq_filter, hsub]
    have h1 : matchLang ["pt-BR", "en"] (some "por") = true := by decide
    have h2 : matchLang ["pt-BR", "en"] (some "eng") = true := by decide
    have h3 : matchLang ["pt-BR", "en"] (some "spa") = false := by decide
    simp [List.filter_cons, h1, h2, h3]
  refine ⟨hsel, ?_⟩
  rw [hsel]
  simp [hik, hjk]

/-- Witness for C1 at a concrete stream list. -/
theorem matched_subs_ptBR_en_witness :
    subIdxs [⟨0, "video", none⟩, ⟨1, "subtitle", some "por"⟩,
      ⟨2, "subtitle", some "eng"⟩, ⟨3, "subtitle", some "spa"⟩]
      ["pt-BR", "en"] = [1, 2] ∧
    3 ∉ subIdxs [⟨0, "video", none⟩, ⟨1, "subtitle", some "por"⟩,
      ⟨2, "subtitle", some "eng"⟩, ⟨3, "subtitle", some "spa"⟩]
      ["pt-BR", "en"] :=
  matched_subs_ptBR_en _ 1 2 3 _ _ _ (by rfl) (by decide) (by decide)

/-- C6: a filter set containing the wildcard matches every subtitle
stream, even one with an empty or missing language tag, and an empty
filter set matches none. -/
theorem wildcard_and_empty_filters (language : Option String)
    (langFilters : List String) (hw : "*" ∈ langFilters) :
    matchLang langFilters language = true ∧ matchLang [] language = false := by
  constructor
  · unfold matchLang
    simp only [Bool.or_eq_true, List.any_eq_true, List.contains_iff_exists_mem_beq]
    exact Or.inr ⟨"*", hw, by decide⟩
  · unfold matchLang
    simp

/-- Witness for C6: the wildcard filter list matches a stream with no
language tag. -/
theorem wildcard_and_empty_filters_witness :
    matchLang ["pt", "*"] none = true ∧ matchLang [] none = false :=
  wildcard_and_empty_filters none ["pt", "*"] (by decide)

theorem takeWhile_append_all {p : Char → Bool} {l r : List Char}
    (hl : ∀ c ∈ l, p c = true) :
    (l ++ r).takeWhile p = l ++ r.takeWhile p := by
  induction l with
  | nil => simp
  | cons c t ih =>
    simp [List.takeWhile_cons, hl c (List.mem_cons_self c t),
      ih fun d hd => hl d (List.mem_cons_of_mem c hd)]

theorem dropWhile_append_all {p : Char → Bool} {l r : List Char}
    (hl : ∀ c ∈ l, p c = true) :
    (l ++ r).dropWhile p = r.dropWhile p := by
  induction l with
  | nil => simp
  | cons c t ih =>
    simp [List.dropWhile_cons, hl c (List.mem_cons_self c t),
      ih fun d hd => hl d (List.mem_cons_of_mem c hd)]

theorem fracDigits_decomp (r : List Char) :
    AllDigits (fracDigits r) ∧ ∃ tail, r = fracPartChars (fracDigits r) ++ tail := by
  match r with
  | [] => exact ⟨by simp [fracDigits, AllDigits], ⟨[], by simp [fracDigits, fracPartChars]⟩⟩
  | c :: r6 =>
    by_cases hc : c = '.'
    · subst hc
      by_cases hf : r6.takeWhile Char.isDigit = []
      · exact ⟨by simp [fracDigits, hf, AllDigits],
          ⟨'.' :: r6, by simp [fracDigits, fracPartChars, hf]⟩⟩
      · refine ⟨?_, ⟨r6.dropWhile Char.isDigit, ?_⟩⟩
        · intro x hx
          exact List.mem_takeWhile_imp (by simpa [fracDigits] using hx)
        · have hfd : fracDigits ('.' :: r6) = r6.takeWhile Char.isDigit := by
            simp [fracDigits]
          rw [hfd]
          simp only [fracPartChars, if_neg hf, List.cons_append]
          exact congrArg (List.cons '.') (List.takeWhile_append_dropWhile Char.isDigit r6).symm
    · exact ⟨by simp [fracDigits, hc, AllDigits],
        ⟨c :: r6, by simp [fracDigits, fracPartChars, hc]⟩⟩

theorem head_tail_of_headq {r : List Char} {a : Char} (h : r.head? = some a) :
    r = a :: r.tail := by
  cases r with
  | nil => simp at h
  | cons b t =>
    simp only [List.head?_cons, Option.some.injEq] at h
    rw [h]
    rfl

theorem matchHMS_eq_some {r0 : List Char} {v : ℚ} (h : matchHMS r0 = some v) :
    ∃ hd md sd f tail,
      r0 = hd ++ ':' :: (md ++ ':' :: (sd ++ (fracPartChars f ++ tail))) ∧
      hd ≠ [] ∧ md ≠ [] ∧ sd ≠ [] ∧
      AllDigits hd ∧ AllDigits md ∧ AllDigits sd ∧ AllDigits f ∧
      v = ratVal hd md sd f := by
  unfold matchHMS at h
  split_ifs at h with h1 h2 h3 h4 h5
  have hdec := fracDigits_decomp
    (((((r0.dropWhile Char.isDigit).tail).dropWhile Char.isDigit).tail).dropWhile
      Char.isDigit)
  obtain ⟨tl, htl⟩ := hdec.2
  injection h with hv
  refine ⟨r0.takeWhile Char.isDigit,
    ((r0.dropWhile Char.isDigit).tail).takeWhile Char.isDigit,
    ((((r0.dropWhile Char.isDigit).tail).dropWhile Char.isDigit).tail).takeWhile
      Char.isDigit,
    fracDigits
      (((((r0.dropWhile Char.isDigit).tail).dropWhile Char.isDigit).tail).dropWhile
        Char.isDigit),
    tl, ?_, h1, h3, h5,
    fun c hc => List.mem_takeWhile_imp hc,
    fun c hc => List.mem_takeWhile_imp hc,
    fun c hc => List.mem_takeWhile_imp hc,
    hdec.1, hv.symm⟩
  have e4 : (((r0.dropWhile Char.isDigit).tail).dropWhile Char.isDigit).tail
      = ((((r0.dropWhile Char.isDigit).tail).dropWhile Char.isDigit).tail).takeWhile
          Char.isDigit ++
        (fracPartChars (fracDigits
          (((((r0.dropWhile Char.isDigit).tail).dropWhile Char.isDigit).tail).dropWhile
            Char.isDigit)) ++ tl) := by
    conv_lhs => rw [← List.takeWhile_append_dropWhile Char.isDigit
      (((r0.dropWhile Char.isDigit).tail).dropWhile Char.isDigit).tail]
    rw [← htl]
  have e2 : (r0.dropWhile Char.isDigit).tail
      = ((r0.dropWhile Char.isDigit).tail).takeWhile Char.isDigit ++
        ':' :: (((r0.dropWhile Char.isDigit).tail).dropWhile Char.isDigit).tail := by
    conv_lhs => rw [← List.takeWhile_append_dropWhile Char.isDigit
      (r0.dropWhile Char.isDigit).tail]
    rw [← head_tail_of_headq h4]
  have e0 : r0 = r0.takeWhile Char.isDigit ++ ':' :: (r0.dropWhile Char.isDigit).tail := by
    conv_lhs => rw [← List.takeWhile_append_dropWhile Char.isDigit r0]
    rw [← head_tail_of_headq h2]
  calc r0 = r0.takeWhile Char.isDigit ++ ':' :: (r0.dropWhile Char.isDigit).tail := e0
    _ = r0.takeWhile Char.isDigit ++ ':' ::
          (((r0.dropWhile Char.isDigit).tail).takeWhile Char.isDigit ++
            ':' :: (((r0.dropWhile Char.isDigit).tail).dropWhile Char.isDigit).tail) :=
        congrArg (fun x => r0.takeWhile Char.isDigit ++ ':' :: x) e2
    _ = _ :=
        congrArg (fun x => r0.takeWhile Char.isDigit ++ ':' ::
          (((r0.dropWhile Char.isDigit).tail).takeWhile Char.isDigit ++ ':' :: x)) e4

theorem matchTimeAt_eq_some {cs : List Char} {v : ℚ} (h : matchTimeAt cs = some v) :
    ∃ r0, cs = 't' :: 'i' :: 'm' :: 'e' :: '=' :: r0 ∧ matchHMS r0 = some v := by
  rcases cs with _ | ⟨a, _ | ⟨b, _ | ⟨c, _ | ⟨d, _ | ⟨e, r0⟩⟩⟩⟩⟩
  · simp [matchTimeAt] at h
  · simp [matchTimeAt] at h
  · simp [matchTimeAt] at h
  · simp [matchTimeAt] at h
  · simp [matchTimeAt] at h
  · simp only [matchTimeAt] at h
    split_ifs at h with hc
    obtain ⟨h1, h2, h3, h4, h5⟩ := hc
    subst h1; subst h2; subst h3; subst h4; subst h5
    exact ⟨r0, rfl, h⟩

theorem matchTimeAt_marker (r0 : List Char) :
    matchTimeAt ('t' :: 'i' :: 'm' :: 'e' :: '=' :: r0) = matchHMS r0 := by
  simp [matchTimeAt]

theorem matchHMS_marker_isSome (tail : List Char) {hd md sd : List Char}
    (hh : hd ≠ []) (hm : md ≠ []) (hs : sd ≠ [])
    (dh : AllDigits hd) (dm : AllDigits md) (ds : AllDigits sd) :
    ∃ w, matchHMS (hd ++ ':' :: (md ++ ':' :: (sd ++ tail))) = some w := by
  have hcolon : Char.isDigit ':' = false := by decide
  have t0 : (hd ++ ':' :: (md ++ ':' :: (sd ++ tail))).takeWhile Char.isDigit = hd := by
    rw [takeWhile_append_all dh]
    simp [List.takeWhile_cons, hcolon]
  have d0 : (hd ++ ':' :: (md ++ ':' :: (sd ++ tail))).dropWhile Char.isDigit
      = ':' :: (md ++ ':' :: (sd ++ tail)) := by
    rw [dropWhile_append_all dh]
    simp [List.dropWhile_cons, hcolon]
  have t2 : (md ++ ':' :: (sd ++ tail)).takeWhile Char.isDigit = md := by
    rw [takeWhile_append_all dm]
    simp [List.takeWhile_cons, hcolon]
  have d2 : (md ++ ':' :: (sd ++ tail)).dropWhile Char.isDigit = ':' :: (sd ++ tail) := by
    rw [dropWhile_append_all dm]
    simp [List.dropWhile_cons, hcolon]
  have t4 : (sd ++ tail).takeWhile Char.isDigit = sd ++ tail.takeWhile Char.isDigit :=
    takeWhile_append_all ds
  have d4 : (sd ++ tail).dropWhile Char.isDigit = tail.dropWhile Char.isDigit :=
    dropWhile_append_all ds
  have hne : sd ++ tail.takeWhile Char.isDigit ≠ [] := by
    intro hcontra
    exact hs (List.append_eq_nil.mp hcontra).1
  refine ⟨ratVal hd md (sd ++ tail.takeWhile Char.isDigit)
    (fracDigits (tail.dropWhile Char.isDigit)), ?_⟩
  unfold matchHMS
  rw [t0, d0]
  simp only [List.head?_cons, List.tail_cons]
  rw [t2, d2]
  simp only [List.head?_cons, List.tail_cons]
  rw [t4, d4]
  simp [hh, hm, hne]

theorem searchTime_append_marker (pre tail : List Char) {hd md sd : List Char}
    (hh : hd ≠ []) (hm : md ≠ []) (hs : sd ≠ [])
    (dh : AllDigits hd) (dm : AllDigits md) (ds : AllDigits sd) :
    (searchTime (pre ++ (timeMarker hd md sd ++ tail))).isSome := by
  induction pre with
  | nil =>
    obtain ⟨w, hw⟩ := matchHMS_marker_isSome tail hh hm hs dh dm ds
    have e : timeMarker hd md sd ++ tail
        = 't' :: 'i' :: 'm' :: 'e' :: '=' :: (hd ++ ':' :: (md ++ ':' :: (sd ++ tail))) := by
      simp [timeMarker]
    rw [List.nil_append, e]
    simp [searchTime, matchTimeAt_marker, hw]
  | cons c pr ih =>
    rw [List.cons_append]
    cases hma : matchTimeAt (c :: (pr ++ (timeMarker hd md sd ++ tail))) with
    | some w => simp [searchTime, hma]
    | none => simpa [searchTime, hma] using ih

theorem searchTime_eq_some {cs : List Char} {v : ℚ} (h : searchTime cs = some v) :
    ∃ pre hd md sd f tail,
      cs = pre ++ timeMarker hd md sd ++ (fracPartChars f ++ tail) ∧
      hd ≠ [] ∧ md ≠ [] ∧ sd ≠ [] ∧
      AllDigits hd ∧ AllDigits md ∧ AllDigits sd ∧ AllDigits f ∧
      v = ratVal hd md sd f := by
  induction cs with
  | nil => simp [searchTime] at h
  | cons c tl ih =>
    rw [searchTime] at h
    cases hma : matchTimeAt (c :: tl) with
    | some w =>
      rw [hma] at h
      simp only [] at h
      obtain ⟨r0, hcs, hm0⟩ := matchTimeAt_eq_some hma
      obtain ⟨hd, md, sd, f, tail, hr0, hh, hmm, hss, dh, dm, ds, df, hv⟩ :=
        matchHMS_eq_some hm0
      injection h with hw
      refine ⟨[], hd, md, sd, f, tail, ?_, hh, hmm, hss, dh, dm, ds, df, by
        rw [← hw]; exact hv⟩
      rw [hcs, hr0]
      simp [timeMarker]
    | none =>
      rw [hma] at h
      simp only [] at h
      obtain ⟨pre, hd, md, sd, f, tail, hcs, hh, hmm, hss, dh, dm, ds, df, hv⟩ := ih h
      exact ⟨c :: pre, hd, md, sd, f, tail,
        by rw [List.cons_append, List.cons_append, ← hcs], hh, hmm, hss, dh, dm, ds, df, hv⟩

/-- C8: for every line, `parse_ffmpeg_time` returns `none` exactly when
the line has no `time=h:m:s` elapsed-time marker, and whenever it returns
a value the line decomposes around a marker whose groups `h`, `m`, `s`
(with optional fraction `f`) give exactly `h*3600 + m*60 + s` total
seconds.  The function is total, so no input line can make it raise. -/
theorem parse_ffmpeg_time_spec (line : String) :
    (parse_ffmpeg_time line = none ↔ ¬ ContainsTimeMarker line.data) ∧
    (∀ v, parse_ffmpeg_time line = some v →
      ∃ pre hd md sd f tail,
        line.data = pre ++ timeMarker hd md sd ++ (fracPartChars f ++ tail) ∧
        hd ≠ [] ∧ md ≠ [] ∧ sd ≠ [] ∧
        AllDigits hd ∧ AllDigits md ∧ AllDigits sd ∧ AllDigits f ∧
        v = (digitsToNat hd : ℚ) * 3600 + (digitsToNat md : ℚ) * 60 +
          ((digitsToNat sd : ℚ) + (digitsToNat f : ℚ) / (10 : ℚ) ^ f.length)) := by
  constructor
  · constructor
    · intro h hC
      obtain ⟨pre, hd, md, sd, tail, hcs, hh, hm, hs, dh, dm, ds⟩ := hC
      rw [List.append_assoc] at hcs
      have hsome := searchTime_append_marker pre tail hh hm hs dh dm ds
      rw [← hcs] at hsome
      rw [parse_ffmpeg_time] at h
      rw [h] at hsome
      simp at hsome
    · intro hnc
      cases hp : parse_ffmpeg_time line with
      | none => rfl
      | some v =>
        obtain ⟨pre, hd, md, sd, f, tail, hcs, hh, hm, hs, dh, dm, ds, df, hv⟩ :=
          searchTime_eq_some hp
        exact absurd ⟨pre, hd, md, sd, fracPartChars f ++ tail, hcs,
          hh, hm, hs, dh, dm, ds⟩ hnc
  · intro v hv
    exact searchTime_eq_some hv

/-- Witness for C8 at the concrete line `time=0:0:7`. -/
theorem parse_ffmpeg_time_spec_witness :
    ∃ pre hd md sd f tail,
      ("time=0:0:7" : String).data = pre ++ timeMarker hd md sd ++ (fracPartChars f ++ tail) ∧
      hd ≠ [] ∧ md ≠ [] ∧ sd ≠ [] ∧
      AllDigits hd ∧ AllDigits md ∧ AllDigits sd ∧ AllDigits f ∧
      (7 : ℚ) = (digitsToNat hd : ℚ) * 3600 + (digitsToNat md : ℚ) * 60 +
        ((digitsToNat sd : ℚ) + (digitsToNat f : ℚ) / (10 : ℚ) ^ f.length) :=
  (parse_ffmpeg_time_spec "time=0:0:7").2 7 (by
    rw [show parse_ffmpeg_time "time=0:0:7" = some (ratVal ['0'] ['0'] ['7'] []) from rfl]
    norm_num [ratVal, show digitsToNat ['7'] = 7 from rfl,
      show digitsToNat ['0'] = 0 from rfl, show digitsToNat [] = 0 from rfl])

/-- C3: while a step's process runs, a percent is reported only when the
duration is positive and equals `min 99 ⌊elapsed/duration*100⌋` — hence
never 100, even when elapsed exceeds the duration; a zero duration
reports no percent at all; and the progress bar shows 100 only when the
finish handler saw success, which requires every step (the final one
included) to exit with code 0. -/
theorem progress_percent_spec :
    (∀ line duration p, trackEmitPct line duration = some p →
      ∃ t, parse_ffmpeg_time line = some t ∧ 0 < duration ∧
        p = min 99 (⌊(t / duration) * 100⌋.toNat) ∧ p ≤ 99 ∧ p ≠ 100) ∧
    (∀ line, trackEmitPct line 0 = none) ∧
    (∀ results, runSteps results = true ↔ ∀ r ∈ results, r = true) ∧
    (∀ results prev, prev ≤ 99 →
      (barAfterUpdate (statusAfterFinish (runSteps results)) prev = 100 ↔
        runSteps results = true)) := by
  refine ⟨?_, ?_, ?_, ?_⟩
  · intro line duration p h
    unfold trackEmitPct at h
    cases hp : parse_ffmpeg_time line with
    | none => rw [hp] at h; simp at h
    | some t =>
      rw [hp] at h
      simp only [] at h
      split_ifs at h with hd
      injection h with hp2
      refine ⟨t, rfl, hd, hp2.symm, ?_, ?_⟩
      · rw [← hp2]; exact min_le_left _ _
      · rw [← hp2]
        have := min_le_left 99 (⌊(t / duration) * 100⌋.toNat)
        omega
  · intro line
    unfold trackEmitPct
    cases parse_ffmpeg_time line with
    | none => rfl
    | some t => simp
  · intro results
    induction results with
    | nil => simp [runSteps]
    | cons r rs ih => cases r <;> simp [runSteps, ih]
  · intro results prev hprev
    cases hrs : runSteps results with
    | false => simp [statusAfterFinish, barAfterUpdate]; omega
    | true => simp [statusAfterFinish, barAfterUpdate]

/-- Witness for C3: a parsed elapsed time of 100s against a duration of
50s (elapsed ≥ duration) still reports 99, and a bar update after a
failed step sequence cannot show 100. -/
theorem progress_percent_spec_witness :
    (∃ t, parse_ffmpeg_time "time=0:1:40" = some t ∧ (0 : ℚ) < 50 ∧
      (99 : ℕ) = min 99 (⌊(t / 50) * 100⌋.toNat) ∧ (99 : ℕ) ≤ 99 ∧ (99 : ℕ) ≠ 100) ∧
    (barAfterUpdate (statusAfterFinish (runSteps [true, false])) 42 = 100 ↔
      runSteps [true, false] = true) := by
  constructor
  · apply progress_percent_spec.1 "time=0:1:40" 50 99
    have hp : parse_ffmpeg_time "time=0:1:40" = some (ratVal ['0'] ['1'] ['4', '0'] []) :=
      rfl
    have ht : ratVal ['0'] ['1'] ['4', '0'] [] = 100 := by
      norm_num [ratVal, show digitsToNat ['0'] = 0 from rfl,
        show digitsToNat ['1'] = 1 from rfl, show digitsToNat ['4', '0'] = 40 from rfl,
        show digitsToNat [] = 0 from rfl]
    unfold trackEmitPct
    rw [hp]
    simp only [ht]
    norm_num
  · exact progress_percent_spec.2.2.2 [true, false] 42 (by decide)


theorem scanJobs_running {l : List AJob} {k : ℕ} {j : AJob}
    (h : (scanJobs l).1[k]? = some j) (hr : j.status = .running) :
    ∃ j0, l[k]? = some j0 ∧ j0.status = .running := by
  induction l generalizing k with
  | nil => simp [scanJobs] at h
  | cons a t ih =>
    unfold scanJobs at h
    split_ifs at h with h1 h2
    · have hb : (a :: t)[k]? = some j := h
      exact ⟨j, hb, hr⟩
    · have hb : ({ a with status := JStatus.skipped } :: (scanJobs t).1)[k]? = some j := h
      cases k with
      | zero =>
        simp only [List.getElem?_cons_zero, Option.some.injEq] at hb
        rw [← hb] at hr
        simp at hr
      | succ k =>
        simp only [List.getElem?_cons_succ] at hb
        obtain ⟨j0, hj0, hr0⟩ := ih hb
        exact ⟨j0, by simpa using hj0, hr0⟩
    · have hb : (a :: (scanJobs t).1)[k]? = some j := h
      cases k with
      | zero =>
        simp only [List.getElem?_cons_zero, Option.some.injEq] at hb
        exact ⟨a, by simp, hb ▸ hr⟩
      | succ k =>
        simp only [List.getElem?_cons_succ] at hb
        obtain ⟨j0, hj0, hr0⟩ := ih hb
        exact ⟨j0, by simpa using hj0, hr0⟩

theorem scanJobs_found {l : List AJob} {i : ℕ} (h : (scanJobs l).2 = some i) :
    ∃ j, (scanJobs l).1[i]? = some j ∧ j.status = .queued := by
  induction l generalizing i with
  | nil => simp [scanJobs] at h
  | cons a t ih =>
    unfold scanJobs at h ⊢
    split_ifs at h ⊢ with h1 h2
    · have hb : (some 0 : Option ℕ) = some i := h
      have hb2 : (0 : ℕ) = i := by injection hb
      subst hb2
      exact ⟨a, by simp, h1⟩
    · have hb : (scanJobs t).2.map (· + 1) = some i := h
      simp only [Option.map_eq_some'] at hb
      obtain ⟨i0, hi0, hii⟩ := hb
      obtain ⟨j, hj, hq⟩ := ih hi0
      subst hii
      exact ⟨j, by simpa using hj, hq⟩
    · have hb : (scanJobs t).2.map (· + 1) = some i := h
      simp only [Option.map_eq_some'] at hb
      obtain ⟨i0, hi0, hii⟩ := hb
      obtain ⟨j, hj, hq⟩ := ih hi0
      subst hii
      exact ⟨j, by simpa using hj, hq⟩

theorem processNext_never_blocks (s : SchedState) : (processNext s).2 = false := by
  unfold processNext
  split_ifs with hc
  · rfl
  · cases hscan : (scanJobs s.jobs).2 with
    | none => simp
    | some i =>
      obtain ⟨j, hj, hq⟩ := scanJobs_found hscan
      have hneg : ¬(j.status = JStatus.incompatible ∧ ¬j.skipIfIncompatible = true) := by
        rw [hq]
        simp
      simp only [hj, if_neg hneg]

theorem runningAtCurrent_preserved {s s2 : SchedState} (hstep : SchedStep s s2)
    (hinv : RunningAtCurrent s) : RunningAtCurrent s2 := by
  cases hstep with
  | pnext =>
    cases hcmain : s.current with
    | some i =>
      have he : processNext s = (s, false) := by
        simp [processNext, hcmain]
      rw [he]
      exact hinv
    | none =>
      have hscannorun : ∀ (k : ℕ) (j : AJob), (scanJobs s.jobs).1[k]? = some j →
          j.status ≠ .running := by
        intro k j hk hr
        obtain ⟨j0, hj0, hr0⟩ := scanJobs_running hk hr
        have := hinv k j0 hj0 hr0
        rw [hcmain] at this
        exact absurd this (by simp)
      cases hscan : (scanJobs s.jobs).2 with
      | none =>
        have he : processNext s = ({ jobs := (scanJobs s.jobs).1, current := s.current },
            false) := by
          simp [processNext, hcmain, hscan]
        rw [he]
        intro k j hk hr
        exact absurd hr (hscannorun k j hk)
      | some i =>
        cases hget : (scanJobs s.jobs).1[i]? with
        | none =>
          have he : processNext s = ({ jobs := (scanJobs s.jobs).1, current := s.current },
              false) := by
            simp [processNext, hcmain, hscan, hget]
          rw [he]
          intro k j hk hr
          exact absurd hr (hscannorun k j hk)
        | some j0 =>
          have he : processNext s =
              (if j0.status = JStatus.incompatible ∧ ¬j0.skipIfIncompatible then
                (SchedState.mk (scanJobs s.jobs).1 s.current, true)
              else
                (SchedState.mk ((scanJobs s.jobs).1.set i
                  { j0 with status := JStatus.running }) (some i), false)) := by
            simp [processNext, hcmain, hscan, hget]
          rw [he]
          split_ifs with hblock
          · intro k j hk hr
            exact absurd hr (hscannorun k j hk)
          · intro k j hk hr
            by_cases hki : k = i
            · subst hki
              rfl
            · have hk2 : ((scanJobs s.jobs).1.set i
                  { j0 with status := JStatus.running })[k]? = some j := hk
              rw [List.getElem?_set_ne (Ne.symm hki)] at hk2
              exact absurd hr (hscannorun k j hk2)
  | finish ok =>
    cases hcur : s.current with
    | none =>
      have he : onFinished s ok = s := by
        simp [onFinished, hcur]
      rw [he]
      exact hinv
    | some i =>
      cases hget : s.jobs[i]? with
      | none =>
        have he : onFinished s ok = { s with current := none } := by
          simp [onFinished, hcur, hget]
        rw [he]
        intro k j hk hr
        have hk2 : s.jobs[k]? = some j := hk
        have := hinv k j hk2 hr
        rw [hcur] at this
        have hki : k = i := by injection this with h2; exact h2.symm
        subst hki
        rw [hget] at hk2
        exact absurd hk2 (by simp)
      | some j0 =>
        have he : onFinished s ok = SchedState.mk
            (s.jobs.set i { j0 with status := statusAfterFinish ok }) none := by
          simp [onFinished, hcur, hget]
        rw [he]
        intro k j hk hr
        have hk2 : (s.jobs.set i { j0 with status := statusAfterFinish ok })[k]?
            = some j := hk
        by_cases hki : k = i
        · subst hki
          have hlt : k < s.jobs.length := by
            by_contra hge
            rw [List.getElem?_eq_none (by omega)] at hget
            exact absurd hget (by simp)
          rw [List.getElem?_set_eq_of_lt _ hlt] at hk2
          have hjj : j = { j0 with status := statusAfterFinish ok } := by
            injection hk2 with h2; exact h2.symm
          rw [hjj] at hr
          cases ok <;> simp [statusAfterFinish] at hr
        · rw [List.getElem?_set_ne (Ne.symm hki)] at hk2
          have := hinv k j hk2 hr
          rw [hcur] at this
          have : k = i := by injection this with h2; exact h2.symm
          exact absurd this hki
  | add j hj =>
    intro k j2 hk hr
    have hk2 : (s.jobs ++ [j])[k]? = some j2 := hk
    by_cases hkl : k < s.jobs.length
    · rw [List.getElem?_append_left hkl] at hk2
      exact hinv k j2 hk2 hr
    · by_cases hke : k = s.jobs.length
      · rw [hke, List.getElem?_concat_length] at hk2
        have hjj : j2 = j := by injection hk2 with h2; exact h2.symm
        rw [hjj] at hr
        cases hj with
        | inl hq => rw [hq] at hr; exact absurd hr (by simp)
        | inr hq => rw [hq] at hr; exact absurd hr (by simp)
      · rw [List.getElem?_eq_none (by simp; omega)] at hk2
        exact absurd hk2 (by simp)

theorem length_filter_le_one {α : Type} {p : α → Bool} (l : List α) (i : ℕ)
    (h : ∀ (k : ℕ) (x : α), l[k]? = some x → p x = true → k = i) :
    (l.filter p).length ≤ 1 := by
  induction l generalizing i with
  | nil => simp
  | cons a t ih =>
    by_cases hp : p a = true
    · have ht : t.filter p = [] := by
        rw [List.filter_eq_nil_iff]
        intro x hx hpx
        obtain ⟨k, hk⟩ := List.mem_iff_getElem?.mp hx
        have h0 : (0 : ℕ) = i := h 0 a (by simp) hp
        have := h (k + 1) x (by simpa using hk) (by simpa using hpx)
        omega
      simp [List.filter_cons, hp, ht]
    · rw [List.filter_cons_of_neg (by simpa using hp)]
      cases i with
      | zero =>
        have ht : t.filter p = [] := by
          rw [List.filter_eq_nil_iff]
          intro x hx hpx
          obtain ⟨k, hk⟩ := List.mem_iff_getElem?.mp hx
          have := h (k + 1) x (by simpa using hk) (by simpa using hpx)
          omega
        simp [ht]
      | succ m =>
        exact ih m (fun k x hk hx => by
          have := h (k + 1) x (by simpa using hk) hx
          omega)

theorem countRunning_le_one_of_inv {s : SchedState} (hinv : RunningAtCurrent s) :
    countRunning s.jobs ≤ 1 := by
  cases hcur : s.current with
  | none =>
    have hnil : s.jobs.filter (fun j => j.status == JStatus.running) = [] := by
      rw [List.filter_eq_nil_iff]
      intro j hj hpj
      obtain ⟨k, hk⟩ := List.mem_iff_getElem?.mp hj
      have hr : j.status = JStatus.running := by simpa using hpj
      have := hinv k j hk hr
      rw [hcur] at this
      exact absurd this (by simp)
    unfold countRunning
    rw [hnil]
    simp
  | some i =>
    exact length_filter_le_one s.jobs i (fun k j hk hpj => by
      have hr : j.status = JStatus.running := by simpa using hpj
      have := hinv k j hk hr
      rw [hcur] at this
      injection this with h2
      exact h2.symm)

/-- C2: in every scheduler state reachable through admission,
`process_next` passes and worker-finished signals, at most one job has
status `running`: a job is dispatched only when no worker is running,
and each finish makes the previous running job terminal before the next
dispatch. -/
theorem at_most_one_running (s : SchedState) (h : SchedReached s) :
    countRunning s.jobs ≤ 1 := by
  have hinv : RunningAtCurrent s := by
    unfold SchedReached at h
    induction h with
    | refl =>
      intro k j hk hr
      simp at hk
    | tail hab hstep ih => exact runningAtCurrent_preserved hstep ih
  exact countRunning_le_one_of_inv hinv

/-- Witness for C2: admit one queued job, dispatch it, and count the
running jobs of the state actually reached. -/
theorem at_most_one_running_witness :
    countRunning (processNext
      (SchedState.mk [AJob.mk JStatus.queued false 0] none)).1.jobs ≤ 1 :=
  at_most_one_running _
    (Relation.ReflTransGen.tail
      (Relation.ReflTransGen.tail Relation.ReflTransGen.refl
        (SchedStep.add (SchedState.mk [] none) (AJob.mk JStatus.queued false 0)
          (Or.inl rfl)))
      (SchedStep.pnext (SchedState.mk [AJob.mk JStatus.queued false 0] none)))

/-- C5 (code bug): a blocking incompatible job (`skip_if_incompatible`
false) does not halt the scan — the queued job behind it is dispatched
and the warning branch never fires (it is dead code: the scan only ever
returns a `queued` index) — while a flagged incompatible job is indeed
auto-skipped. -/
theorem blocking_incompatible_scanned_past :
    ((processNext (SchedState.mk
        [AJob.mk JStatus.incompatible false 0, AJob.mk JStatus.queued false 0] none)).1.jobs
      = [AJob.mk JStatus.incompatible false 0, AJob.mk JStatus.running false 0] ∧
     (processNext (SchedState.mk
        [AJob.mk JStatus.incompatible false 0, AJob.mk JStatus.queued false 0] none)).1.current
      = some 1) ∧
    (processNext (SchedState.mk
        [AJob.mk JStatus.incompatible true 0, AJob.mk JStatus.queued false 0] none)).1.jobs
      = [AJob.mk JStatus.skipped true 0, AJob.mk JStatus.running false 0] ∧
    (∀ s, (processNext s).2 = false) :=
  ⟨⟨by decide, by decide⟩, by decide, processNext_never_blocks⟩

/-- C7 counterexample: with zero free bytes at the destination and a
queued job of 100 bytes, the code's dispatcher — which consults no disk
state at all — still dispatches the job to `running`, while the
spec-modelled re-checking dispatcher flips it to `incompatible` and does
not dispatch. -/
theorem dispatch_skips_space_recheck :
    ((processNext (SchedState.mk [AJob.mk JStatus.queued false 100] none)).1.jobs.map
        (fun j => j.status) = [JStatus.running] ∧
      (processNext (SchedState.mk [AJob.mk JStatus.queued false 100] none)).1.current
        = some 0) ∧
    ((processNextSpecRecheck 0
        (SchedState.mk [AJob.mk JStatus.queued false 100] none)).1.jobs.map
        (fun j => j.status) = [JStatus.incompatible] ∧
      (processNextSpecRecheck 0
        (SchedState.mk [AJob.mk JStatus.queued false 100] none)).1.current = none) := by
  exact ⟨⟨by decide, by decide⟩, by decide, by decide⟩

/-- C4 counterexample: in the app2 pipeline a running job whose worker
had cancellation requested finishes through `_on_finished` with status
`error` — `canceled` is not even a status of app2's `Job`. -/
theorem canceled_run_ends_error :
    onFinished (SchedState.mk [AJob.mk JStatus.running false 0] (some 0))
        (trackResult true 0)
      = SchedState.mk [AJob.mk JStatus.error false 0] none := by
  decide

/-- C4 amended: cancellation of a running job yields `canceled`
(distinct from `error`) in the part_000 FFmpegWorker pipeline, whereas
the app2 pipeline finishes a canceled run as `error`. -/
theorem cancel_status_by_pipeline :
    (∀ ok, ffRunFinal true ok = PStatus.canceled) ∧
    PStatus.canceled ≠ PStatus.error ∧
    (∀ rc, statusAfterFinish (trackResult true rc) = JStatus.error) :=
  ⟨fun _ => rfl, by decide, fun _ => rfl⟩

/-- C9: destination naming is a pure function; with overwrite disabled
the returned path never collides with an existing file, and when the
base path already exists the result is the candidate with the smallest
numeric disambiguator `i ≥ 1` (all smaller candidates exist). -/
theorem unique_path_spec (base : MPath) (fs : List MPath) :
    uniquePath base true fs = base ∧
    uniquePath base false fs ∉ fs ∧
    (base ∈ fs → ∃ i, 1 ≤ i ∧ uniquePath base false fs = cand base i ∧
      cand base i ∉ fs ∧ ∀ j, 1 ≤ j → j < i → cand base j ∈ fs) := by
  refine ⟨?_, ?_, ?_⟩
  · unfold uniquePath
    simp
  · by_cases hin : base ∈ fs
    · have he : uniquePath base false fs
          = cand base (Nat.find (exists_unused base fs) + 1) := by
        unfold uniquePath
        rw [if_neg (by simp [hin])]
      rw [he]
      exact Nat.find_spec (exists_unused base fs)
    · have he : uniquePath base false fs = base := by
        unfold uniquePath
        rw [if_pos (Or.inr hin)]
      rw [he]
      exact hin
  · intro hbase
    unfold uniquePath
    rw [if_neg (by simp [hbase])]
    refine ⟨Nat.find (exists_unused base fs) + 1, by omega, rfl,
      Nat.find_spec (exists_unused base fs), ?_⟩
    intro j h1 hlt
    have hmin := Nat.find_min (exists_unused base fs)
      (show j - 1 < Nat.find (exists_unused base fs) by omega)
    have hj : j - 1 + 1 = j := by omega
    rw [hj] at hmin
    exact not_not.mp hmin

/-- Witness for C9: with `movie.srt` and `movie (1).srt` already present
and overwrite disabled, the chosen path is `movie (2).srt`. -/
theorem unique_path_spec_witness :
    ∃ i, 1 ≤ i ∧
      uniquePath (MPath.mk "movie" "srt") false
        [MPath.mk "movie" "srt", cand (MPath.mk "movie" "srt") 1]
        = cand (MPath.mk "movie" "srt") i ∧
      cand (MPath.mk "movie" "srt") i ∉
        [MPath.mk "movie" "srt", cand (MPath.mk "movie" "srt") 1] ∧
      ∀ j, 1 ≤ j → j < i → cand (MPath.mk "movie" "srt") j ∈
        [MPath.mk "movie" "srt", cand (MPath.mk "movie" "srt") 1] :=
  (unique_path_spec (MPath.mk "movie" "srt")
    [MPath.mk "movie" "srt", cand (MPath.mk "movie" "srt") 1]).2.2 (by simp)

/-- C10: a failed or unparsable duration probe yields the sentinel 0.0;
the admission status never depends on the duration outcome; and a job
with a video stream and enough space is admitted as queued even when the
duration probe failed. -/
theorem failed_duration_probe_still_queued :
    probe_duration none = 0 ∧
    (∀ sres d1 d2 size freeR,
      (admitJob sres d1 size freeR).1 = (admitJob sres d2 size freeR).1) ∧
    (∀ streams size freeR d,
      streams.any (fun s => s.codecType == "video") = true →
      (∀ free, freeR = some free → ¬ free < size) →
      (admitJob (some streams) d size freeR).1 = JStatus.queued) := by
  refine ⟨rfl, ?_, ?_⟩
  · intro sres d1 d2 size freeR
    cases sres <;> rfl
  · intro streams size freeR d hv hfree
    cases freeR with
    | none => simp [admitJob, spaceCheck, hv]
    | some free => simp [admitJob, spaceCheck, hv, hfree free rfl]

/-- Witness for C10: one video stream, ample space, and a failed
duration probe still admit the job as queued. -/
theorem failed_duration_probe_still_queued_witness :
    (admitJob (some [StreamInfo.mk 0 "video" "h264" none]) none 100 (some 500)).1
      = JStatus.queued :=
  failed_duration_probe_still_queued.2.2 [StreamInfo.mk 0 "video" "h264" none] 100
    (some 500) none (by decide) (by intro free hf; cases hf; decide)

/-- C7 amended: the free-space-versus-size check happens at admission
(flipping the job to incompatible there) and, in the subsgpt variant,
again inside the worker after dispatch — where failure ends the job as
`Falhou` (failed), not incompatible.  The app2 dispatcher itself re-checks
nothing (see the counterexample theorem). -/
theorem space_checked_at_admission_and_in_worker :
    (∀ sres d size free, free < size →
      (admitJob sres d size (some free)).1 = JStatus.incompatible) ∧
    (∀ free size steps, free < size →
      sgRun free size steps = false ∧ sgRowStatus (sgRun free size steps) = "Falhou") := by
  constructor
  · intro sres d size free hlt
    cases sres with
    | none =>
      simp only [admitJob, spaceCheck]
      split_ifs <;> rfl
    | some streams =>
      simp [admitJob, spaceCheck, hlt]
  · intro free size steps hlt
    constructor
    · simp [sgRun, hlt]
    · simp [sgRun, sgRowStatus, hlt]

/-- Witness for C7's amended claim: 50 free bytes against a 100-byte
input are rejected at admission, and fail the subsgpt worker preflight
before any step. -/
theorem space_checked_witness :
    (admitJob (some [StreamInfo.mk 0 "video" "h264" none]) none 100 (some 50)).1
      = JStatus.incompatible ∧
    (sgRun 50 100 [true] = false ∧ sgRowStatus (sgRun 50 100 [true]) = "Falhou") :=
  ⟨space_checked_at_admission_and_in_worker.1 (some [StreamInfo.mk 0 "video" "h264" none])
      none 100 50 (by decide),
    space_checked_at_admission_and_in_worker.2 50 100 [true] (by decide)⟩
